import Mathlib

/-!
Verification of the execution and accounting engine of the IMC Prosperity
trading-challenge repository: the order matcher (`match_order` in
`basket_simulator.py` and `simulate.py`), the order-book construction
(`build_order_depth`), and the position/cost-basis/PnL ledger update block of
`run_basket_simulation`.  Python `dict[int, int]` ladders are modelled as
association lists of `(price, quantity)` pairs; Python float arithmetic on
prices is modelled exactly over `ℚ`.
-/

namespace Prosperity

/-- The `Order` record of `datamodel.py`: symbol, limit price (with `0` used
as the market-order sentinel by `basket_simulator.py`) and signed quantity. -/
structure Order where
  symbol : String
  price : Int
  quantity : Int
deriving Repr, DecidableEq

/-- The `OrderDepth` record of `datamodel.py`: `buy_orders` maps bid price to
(positive) quantity, `sell_orders` maps ask price to the negated quantity, as
filled in by `build_order_depth`.  Python dicts become association lists kept
in insertion order. -/
structure OrderDepth where
  buy_orders : List (Int × Int)
  sell_orders : List (Int × Int)
deriving Repr, DecidableEq

/-- `dict.keys()` of a ladder. -/
def keys (l : List (Int × Int)) : List Int := l.map Prod.fst

/-- `ladder[price]` for a price that is a key of the dict (`0` as the
irrelevant default for absent keys: the source only ever looks up keys
obtained from `keys`). -/
def lookupQty (l : List (Int × Int)) (p : Int) : Int :=
  match l.find? (fun kv => kv.1 == p) with
  | some kv => kv.2
  | none => 0

/-- One step of insertion sort (ascending), modelling Python `sorted`. -/
def insertAsc (x : Int) : List Int → List Int
  | [] => [x]
  | y :: ys => if x ≤ y then x :: y :: ys else y :: insertAsc x ys

/-- Python `sorted(list)` on integer keys. -/
def sortAsc (l : List Int) : List Int := l.foldr insertAsc []

/-- One step of insertion sort (descending). -/
def insertDesc (x : Int) : List Int → List Int
  | [] => [x]
  | y :: ys => if y ≤ x then x :: y :: ys else y :: insertDesc x ys

/-- Python `sorted(list, reverse=True)` on integer keys. -/
def sortDesc (l : List Int) : List Int := l.foldr insertDesc []

/-- The `for price in available_prices` loop of the buy branch of
`match_order` (identical in `basket_simulator.py` and `simulate.py`).
State `(executed_qty, total_spent, remaining_qty)`; the sell ladder is also
returned so that the procedure's entire post-state is explicit. -/
def consumeAsks (sell : List (Int × Int)) :
    List Int → Int → Int → Int → (Int × Int × Int) × List (Int × Int)
  | [], e, s, r => ((e, s, r), sell)
  | price :: ps, e, s, r =>
    let available_at_price := -(lookupQty sell price)
    let executed_at_price := min r available_at_price
    if executed_at_price ≤ 0 then consumeAsks sell ps e s r
    else if r - executed_at_price ≤ 0 then
      ((e + executed_at_price, s + executed_at_price * price, r - executed_at_price), sell)
    else
      consumeAsks sell ps (e + executed_at_price) (s + executed_at_price * price)
        (r - executed_at_price)

/-- The `for price in available_prices` loop of the sell branch of
`match_order` (identical in `basket_simulator.py` and `simulate.py`).
State `(executed_qty, total_received, remaining_qty)`. -/
def consumeBids (buy : List (Int × Int)) :
    List Int → Int → Int → Int → (Int × Int × Int) × List (Int × Int)
  | [], e, s, r => ((e, s, r), buy)
  | price :: ps, e, s, r =>
    let available_at_price := lookupQty buy price
    let executed_at_price := min r available_at_price
    if executed_at_price ≤ 0 then consumeBids buy ps e s r
    else if r - executed_at_price ≤ 0 then
      ((e + executed_at_price, s + executed_at_price * price, r - executed_at_price), buy)
    else
      consumeBids buy ps (e + executed_at_price) (s + executed_at_price * price)
        (r - executed_at_price)

/-- The available quantity the buy loop sees at each ask level, truncated at
zero (levels with non-positive availability are skipped by the loop). -/
def askAvail (sell : List (Int × Int)) (p : Int) : Int := max 0 (-(lookupQty sell p))

/-- The available quantity the sell loop sees at each bid level, truncated at
zero. -/
def bidAvail (buy : List (Int × Int)) (p : Int) : Int := max 0 (lookupQty buy p)

namespace Basket

/-- The local `order_price` of the buy branch of `match_order` in
`basket_simulator.py`: the best ask for a market order (price sentinel `0`)
against a non-empty ask ladder, the order's own price otherwise. -/
def order_price_buy (order : Order) (order_depth : OrderDepth) : Int :=
  if order.price = 0 ∧ order_depth.sell_orders ≠ [] then
    ((keys order_depth.sell_orders).min?).getD 0
  else order.price

/-- The local `available_prices` of the buy branch of `match_order` in
`basket_simulator.py`: the ask price levels at or below the reference price,
ascending. -/
def available_prices_buy (order : Order) (order_depth : OrderDepth) : List Int :=
  sortAsc ((keys order_depth.sell_orders).filter
    (fun p => decide (p ≤ order_price_buy order order_depth)))

/-- The local `order_price` of the sell branch of `match_order` in
`basket_simulator.py`: the best bid for a market order against a non-empty
bid ladder, the order's own price otherwise. -/
def order_price_sell (order : Order) (order_depth : OrderDepth) : Int :=
  if order.price = 0 ∧ order_depth.buy_orders ≠ [] then
    ((keys order_depth.buy_orders).max?).getD 0
  else order.price

/-- The local `available_prices` of the sell branch of `match_order` in
`basket_simulator.py`: the bid price levels at or above the reference price,
descending. -/
def available_prices_sell (order : Order) (order_depth : OrderDepth) : List Int :=
  sortDesc ((keys order_depth.buy_orders).filter
    (fun p => decide (order_price_sell order order_depth ≤ p)))

/-- `match_order` of `basket_simulator.py` (lines 33-82), including the
market-order sentinel (`price == 0` uses the best opposing level as the
reference price).  Returns `(executed_qty, vwap)`; the vwap division is the
Python float division, modelled over `ℚ`. -/
def match_order (order : Order) (order_depth : OrderDepth) : Int × ℚ :=
  if 0 < order.quantity then
    let res :=
      (consumeAsks order_depth.sell_orders (available_prices_buy order order_depth)
        0 0 order.quantity).1
    (res.1, if 0 < res.1 then (res.2.1 : ℚ) / (res.1 : ℚ) else 0)
  else
    let res :=
      (consumeBids order_depth.buy_orders (available_prices_sell order order_depth)
        0 0 (-order.quantity)).1
    (-res.1, if 0 < res.1 then (res.2.1 : ℚ) / (res.1 : ℚ) else 0)

/-- `match_order` of `basket_simulator.py` together with the order book as the
procedure leaves it (the loop returns the ladder it read; the opposite ladder
is untouched by the branch). -/
def match_order_full (order : Order) (order_depth : OrderDepth) : (Int × ℚ) × OrderDepth :=
  if 0 < order.quantity then
    let res :=
      consumeAsks order_depth.sell_orders (available_prices_buy order order_depth)
        0 0 order.quantity
    ((res.1.1, if 0 < res.1.1 then (res.1.2.1 : ℚ) / (res.1.1 : ℚ) else 0),
      ⟨order_depth.buy_orders, res.2⟩)
  else
    let res :=
      consumeBids order_depth.buy_orders (available_prices_sell order order_depth)
        0 0 (-order.quantity)
    ((-res.1.1, if 0 < res.1.1 then (res.1.2.1 : ℚ) / (res.1.1 : ℚ) else 0),
      ⟨res.2, order_depth.sell_orders⟩)

end Basket

namespace Sim

/-- The local `available_prices` of the buy branch of `match_order` in
`simulate.py`: ask levels at or below the order's limit price (no market
sentinel in this version). -/
def available_prices_buy (order : Order) (order_depth : OrderDepth) : List Int :=
  sortAsc ((keys order_depth.sell_orders).filter (fun p => decide (p ≤ order.price)))

/-- The local `available_prices` of the sell branch of `match_order` in
`simulate.py`: bid levels at or above the order's limit price. -/
def available_prices_sell (order : Order) (order_depth : OrderDepth) : List Int :=
  sortDesc ((keys order_depth.buy_orders).filter (fun p => decide (order.price ≤ p)))

/-- `match_order` of `simulate.py` (lines 57-94): identical to the basket
version except that there is no market-order sentinel — the order's own price
is always the limit. -/
def match_order (order : Order) (order_depth : OrderDepth) : Int × ℚ :=
  if 0 < order.quantity then
    let res :=
      (consumeAsks order_depth.sell_orders (available_prices_buy order order_depth)
        0 0 order.quantity).1
    (res.1, if 0 < res.1 then (res.2.1 : ℚ) / (res.1 : ℚ) else 0)
  else
    let res :=
      (consumeBids order_depth.buy_orders (available_prices_sell order order_depth)
        0 0 (-order.quantity)).1
    (-res.1, if 0 < res.1 then (res.2.1 : ℚ) / (res.1 : ℚ) else 0)

/-- `match_order` of `simulate.py` together with the order book as the
procedure leaves it. -/
def match_order_full (order : Order) (order_depth : OrderDepth) : (Int × ℚ) × OrderDepth :=
  if 0 < order.quantity then
    let res :=
      consumeAsks order_depth.sell_orders (available_prices_buy order order_depth)
        0 0 order.quantity
    ((res.1.1, if 0 < res.1.1 then (res.1.2.1 : ℚ) / (res.1.1 : ℚ) else 0),
      ⟨order_depth.buy_orders, res.2⟩)
  else
    let res :=
      consumeBids order_depth.buy_orders (available_prices_sell order order_depth)
        0 0 (-order.quantity)
    ((-res.1.1, if 0 < res.1.1 then (res.1.2.1 : ℚ) / (res.1.1 : ℚ) else 0),
      ⟨res.2, order_depth.sell_orders⟩)

end Sim

/-- The total quantity available to a buy order at the ask levels qualifying
under a limit price (the levels `match_order`'s buy branch may consume). -/
def qualifyingAskVolume (d : OrderDepth) (limit : Int) : Int :=
  (((keys d.sell_orders).filter (fun p => decide (p ≤ limit))).map (askAvail d.sell_orders)).sum

/-- The total quantity available to a sell order at the bid levels qualifying
under a limit price. -/
def qualifyingBidVolume (d : OrderDepth) (limit : Int) : Int :=
  (((keys d.buy_orders).filter (fun p => decide (limit ≤ p))).map (bidAvail d.buy_orders)).sum

/-- Per-product ledger state of `run_basket_simulation` in
`basket_simulator.py`: `position[product]`, `position_cost[product]` and the
product's share of `realized_pnl`. -/
structure Ledger where
  position : Int
  position_cost : ℚ
  realized_pnl : ℚ
deriving Repr, DecidableEq

/-- The fill-application block of `run_basket_simulation`
(`basket_simulator.py` lines 149-185) for one product: realizes PnL when the
fill reduces or flips the position, then updates the cost basis and the
position.  Executed only for `executed_qty ≠ 0` by the caller; Python float
arithmetic is modelled over `ℚ`. -/
def applyFill (s : Ledger) (executed_qty : Int) (executed_price : ℚ) : Ledger :=
  let old_position := s.position
  let trade_pnl : ℚ :=
    if (0 < old_position ∧ executed_qty < 0) ∨ (old_position < 0 ∧ 0 < executed_qty) then
      let closing_qty : ℚ := ((min old_position.natAbs executed_qty.natAbs : ℕ) : ℚ)
      let avg_cost : ℚ :=
        if old_position ≠ 0 then s.position_cost / (old_position : ℚ) else 0
      if 0 < old_position then (executed_price - avg_cost) * closing_qty
      else (avg_cost - executed_price) * closing_qty
    else 0
  let position_cost :=
    if old_position = 0 then (executed_qty : ℚ) * executed_price
    else if (0 < old_position ∧ 0 < executed_qty) ∨ (old_position < 0 ∧ executed_qty < 0) then
      s.position_cost + (executed_qty : ℚ) * executed_price
    else
      let remaining_qty := old_position + executed_qty
      if remaining_qty * old_position < 0 then (remaining_qty : ℚ) * executed_price
      else s.position_cost * ((remaining_qty.natAbs : ℚ) / ((old_position.natAbs : ℕ) : ℚ))
  { position := old_position + executed_qty,
    position_cost := position_cost,
    realized_pnl := s.realized_pnl + trade_pnl }

/-- A sequence of fills `(executed_qty, executed_price)` applied to the ledger
in order. -/
def applyFillList (s : Ledger) (fills : List (Int × ℚ)) : Ledger :=
  fills.foldl (fun t f => applyFill t f.1 f.2) s

/-- Total signed quantity of a list of fills. -/
def qtySum (fills : List (Int × ℚ)) : Int := (fills.map Prod.fst).sum

/-- The closing-PnL total `Σ closing_qty × (closing_price − entry_price)` of a
list of closing fills against an entry price `p0`. -/
def closePnl (p0 : ℚ) (closes : List (Int × ℚ)) : ℚ :=
  (closes.map (fun f => ((f.1.natAbs : ℚ)) * (f.2 - p0))).sum

/-- The order-processing step of `run_basket_simulation` (`basket_simulator.py`
lines 146-185) for one order: match it, and apply the fill to the ledger only
when the executed quantity is nonzero. -/
def basketProcessOrder (led : Ledger) (order : Order) (d : OrderDepth) : Ledger :=
  let m := Basket.match_order order d
  if m.1 ≠ 0 then applyFill led m.1 m.2 else led

/-- The order-processing step of `run_simulation` (`simulate.py` lines
154-160) for one order: match it, and add the executed quantity to the
position only when it is nonzero. -/
def simProcessOrder (posn : Int) (order : Order) (d : OrderDepth) : Int :=
  let m := Sim.match_order order d
  if m.1 ≠ 0 then posn + m.1 else posn

/-- The order-processing step of `run_simulation` in
`simulate_mean_reversion.py` (lines 152-157, same in `simulate_momentum.py`
line 98): the order's full quantity is added to the position, with no call to
any matcher and no reference to the order book. -/
def mrProcessOrder (posn : Int) (order : Order) : Int := posn + order.quantity

/-- One product's contribution to the mark-to-market `unrealized_pnl` of
`run_basket_simulation` (`basket_simulator.py` lines 190-196); `none` models
`product not in last_prices`. -/
def markProduct (pos : Int) (position_cost : ℚ) (last_price : Option ℚ) : ℚ :=
  match last_price with
  | some lp =>
    if pos ≠ 0 then
      let avg_cost := position_cost / (pos : ℚ)
      if 0 < pos then (lp - avg_cost) * (pos : ℚ)
      else (avg_cost - lp) * ((pos.natAbs : ℕ) : ℚ)
    else 0
  | none => 0

/-- One product's contribution to the `unrealized` inventory value of
`run_simulation` (`simulate.py` lines 162-165): `pos * last_prices[product]`
when the position is nonzero and a mid price exists. -/
def simMarkProduct (pos : Int) (last_price : Option ℚ) : ℚ :=
  match last_price with
  | some lp => if pos ≠ 0 then (pos : ℚ) * lp else 0
  | none => 0

/-- The four CSV fields of one order-book level in an input row; `none` models
a NaN / absent field. -/
structure LevelFields where
  bid_price : Option Int
  bid_volume : Option Int
  ask_price : Option Int
  ask_volume : Option Int
deriving Repr, DecidableEq

/-- Python dict assignment `d[k] = v` on an association list: overwrite the
existing key in place, else append (insertion order preserved). -/
def insertKV (l : List (Int × Int)) (k v : Int) : List (Int × Int) :=
  if (l.find? (fun kv => kv.1 == k)).isSome then
    l.map (fun kv => if kv.1 == k then (k, v) else kv)
  else l ++ [(k, v)]

/-- One iteration of the `for i in range(1, 4)` loop of `build_order_depth`
(`basket_simulator.py` lines 22-30, `simulate.py` lines 46-54): store the bid
level when both fields are present, and the ask level with negated volume. -/
def addLevel (d : OrderDepth) (lv : LevelFields) : OrderDepth :=
  let d1 :=
    match lv.bid_price, lv.bid_volume with
    | some bp, some bv => { d with buy_orders := insertKV d.buy_orders bp bv }
    | _, _ => d
  match lv.ask_price, lv.ask_volume with
  | some ap, some av => { d1 with sell_orders := insertKV d1.sell_orders ap (-av) }
  | _, _ => d1

/-- `build_order_depth` of `basket_simulator.py` (lines 20-31) and
`simulate.py` (lines 44-55), over the row's three levels. -/
def build_order_depth (row : List LevelFields) : OrderDepth :=
  row.foldl addLevel ⟨[], []⟩

/-- Sign mirror on ledger states: negating position, cost basis and realized
PnL conjugates `applyFill` with quantity negation (used to transfer long-side
results to the short side). -/
def mirror (s : Ledger) : Ledger := ⟨-s.position, -s.position_cost, -s.realized_pnl⟩

/-- The order book of the spec's worked scenario:
`{bids: {99:10, 98:5}, asks: {101:4, 103:6}}` as `build_order_depth` stores it
(ask quantities negated). -/
def scenarioDepth : OrderDepth := ⟨[(99, 10), (98, 5)], [(101, -4), (103, -6)]⟩

theorem natAbs_cast_nonneg {p : Int} (hp : 0 ≤ p) : ((p.natAbs : ℕ) : ℚ) = (p : ℚ) := by
  rw [Int.cast_natAbs, abs_of_nonneg hp]

theorem natAbs_cast_neg {p : Int} (hp : p < 0) : ((p.natAbs : ℕ) : ℚ) = -(p : ℚ) := by
  rw [Int.cast_natAbs, abs_of_neg hp, Int.cast_neg]

theorem applyFill_open (c r : ℚ) (q : Int) (price : ℚ) :
    applyFill ⟨0, c, r⟩ q price = ⟨q, (q : ℚ) * price, r⟩ := by
  simp [applyFill]

theorem applyFill_zero_qty (p : Int) (c r : ℚ) (price : ℚ) (hp : p ≠ 0) :
    applyFill ⟨p, c, r⟩ 0 price = ⟨p, c, r⟩ := by
  have hnot : ¬ ((0 < p ∧ (0 : Int) < 0) ∨ (p < 0 ∧ (0 : Int) < 0)) := by omega
  have hsq : ¬ ((p + 0) * p < 0) := not_lt.mpr (by simpa using mul_self_nonneg p)
  have hdiv : (((p + 0).natAbs : ℕ) : ℚ) / ((p.natAbs : ℕ) : ℚ) = 1 := by
    rw [add_zero]
    exact div_self (Nat.cast_ne_zero.mpr (Int.natAbs_ne_zero.mpr hp))
  simp only [applyFill]
  simp only [Ledger.mk.injEq]
  refine ⟨by omega, ?_, ?_⟩
  · rw [if_neg hp, if_neg (by omega), if_neg hsq, hdiv, mul_one]
  · rw [if_neg (by omega)]
    simp

theorem applyFill_add_long (p : Int) (c r : ℚ) (q : Int) (price : ℚ)
    (hp : 0 < p) (hq : 0 < q) :
    applyFill ⟨p, c, r⟩ q price = ⟨p + q, c + (q : ℚ) * price, r⟩ := by
  simp only [applyFill, Ledger.mk.injEq]
  refine ⟨by trivial, ?_, ?_⟩
  · rw [if_neg (by omega), if_pos (by omega : (0 < p ∧ 0 < q) ∨ (p < 0 ∧ q < 0))]
  · rw [if_neg (by omega)]
    simp

theorem applyFill_add_short (p : Int) (c r : ℚ) (q : Int) (price : ℚ)
    (hp : p < 0) (hq : q < 0) :
    applyFill ⟨p, c, r⟩ q price = ⟨p + q, c + (q : ℚ) * price, r⟩ := by
  simp only [applyFill, Ledger.mk.injEq]
  refine ⟨by trivial, ?_, ?_⟩
  · rw [if_neg (by omega), if_pos (by omega : (0 < p ∧ 0 < q) ∨ (p < 0 ∧ q < 0))]
  · rw [if_neg (by omega)]
    simp

theorem applyFill_reduce_long (p : Int) (c r : ℚ) (q : Int) (price : ℚ)
    (hp : 0 < p) (hq : q < 0) (h : 0 ≤ p + q) :
    applyFill ⟨p, c, r⟩ q price =
      ⟨p + q, c * (((p + q : Int) : ℚ) / (p : ℚ)), r + (price - c / (p : ℚ)) * (-(q : ℚ))⟩ := by
  have hmin : min p.natAbs q.natAbs = q.natAbs := by omega
  have hnn : ¬ ((p + q) * p < 0) := not_lt.mpr (mul_nonneg h (by omega))
  simp only [applyFill, Ledger.mk.injEq]
  refine ⟨by trivial, ?_, ?_⟩
  · rw [if_neg (by omega), if_neg (by omega), if_neg hnn,
      natAbs_cast_nonneg h, natAbs_cast_nonneg (le_of_lt hp)]
  · rw [if_pos (by omega : (0 < p ∧ q < 0) ∨ (p < 0 ∧ 0 < q)), if_pos (by omega : p ≠ 0),
      if_pos hp, hmin, natAbs_cast_neg hq]

theorem applyFill_flip_long (p : Int) (c r : ℚ) (q : Int) (price : ℚ)
    (hp : 0 < p) (hq : q < 0) (h : p + q < 0) :
    applyFill ⟨p, c, r⟩ q price =
      ⟨p + q, ((p + q : Int) : ℚ) * price, r + (price - c / (p : ℚ)) * (p : ℚ)⟩ := by
  have hmin : min p.natAbs q.natAbs = p.natAbs := by omega
  have hneg : (p + q) * p < 0 := mul_neg_of_neg_of_pos h hp
  simp only [applyFill, Ledger.mk.injEq]
  refine ⟨by trivial, ?_, ?_⟩
  · rw [if_neg (by omega), if_neg (by omega), if_pos hneg]
  · rw [if_pos (by omega : (0 < p ∧ q < 0) ∨ (p < 0 ∧ 0 < q)), if_pos (by omega : p ≠ 0),
      if_pos hp, hmin, natAbs_cast_nonneg (le_of_lt hp)]

theorem applyFill_reduce_short (p : Int) (c r : ℚ) (q : Int) (price : ℚ)
    (hp : p < 0) (hq : 0 < q) (h : p + q ≤ 0) :
    applyFill ⟨p, c, r⟩ q price =
      ⟨p + q, c * (((p + q : Int) : ℚ) / (p : ℚ)), r + (c / (p : ℚ) - price) * (q : ℚ)⟩ := by
  have hmin : min p.natAbs q.natAbs = q.natAbs := by omega
  have hnn : ¬ ((p + q) * p < 0) := not_lt.mpr (by nlinarith)
  have hratio : (((p + q).natAbs : ℕ) : ℚ) / ((p.natAbs : ℕ) : ℚ) =
      ((p + q : Int) : ℚ) / (p : ℚ) := by
    rcases eq_or_lt_of_le h with h0 | h0
    · rw [h0]; simp
    · rw [natAbs_cast_neg h0, natAbs_cast_neg hp, neg_div_neg_eq]
  simp only [applyFill, Ledger.mk.injEq]
  refine ⟨by trivial, ?_, ?_⟩
  · rw [if_neg (by omega), if_neg (by omega), if_neg hnn, hratio]
  · rw [if_pos (by omega : (0 < p ∧ q < 0) ∨ (p < 0 ∧ 0 < q)), if_pos (by omega : p ≠ 0),
      if_neg (by omega : ¬ 0 < p), hmin, natAbs_cast_nonneg (le_of_lt hq)]

theorem applyFill_flip_short (p : Int) (c r : ℚ) (q : Int) (price : ℚ)
    (hp : p < 0) (hq : 0 < q) (h : 0 < p + q) :
    applyFill ⟨p, c, r⟩ q price =
      ⟨p + q, ((p + q : Int) : ℚ) * price, r + (c / (p : ℚ) - price) * (-(p : ℚ))⟩ := by
  have hmin : min p.natAbs q.natAbs = p.natAbs := by omega
  have hneg : (p + q) * p < 0 := mul_neg_of_pos_of_neg h hp
  simp only [applyFill, Ledger.mk.injEq]
  refine ⟨by trivial, ?_, ?_⟩
  · rw [if_neg (by omega), if_neg (by omega), if_pos hneg]
  · rw [if_pos (by omega : (0 < p ∧ q < 0) ∨ (p < 0 ∧ 0 < q)), if_pos (by omega : p ≠ 0),
      if_neg (by omega : ¬ 0 < p), hmin, natAbs_cast_neg hp]

theorem mirror_mirror (s : Ledger) : mirror (mirror s) = s := by
  simp [mirror]

theorem applyFill_mirror (s : Ledger) (q : Int) (price : ℚ) :
    applyFill (mirror s) (-q) price = mirror (applyFill s q price) := by
  obtain ⟨p, c, r⟩ := s
  show applyFill ⟨-p, -c, -r⟩ (-q) price = mirror (applyFill ⟨p, c, r⟩ q price)
  rcases lt_trichotomy p 0 with hp | hp | hp
  · rcases lt_trichotomy q 0 with hq | hq | hq
    · rw [applyFill_add_long (-p) (-c) (-r) (-q) price (by omega) (by omega),
        applyFill_add_short p c r q price hp hq]
      simp only [mirror, Ledger.mk.injEq]
      exact ⟨by omega, by push_cast; ring, by ring_nf⟩
    · subst hq
      rw [neg_zero, applyFill_zero_qty (-p) (-c) (-r) price (by omega),
        applyFill_zero_qty p c r price (by omega)]
      simp [mirror]
    · rcases le_or_lt (p + q) 0 with hb | hb
      · rw [applyFill_reduce_long (-p) (-c) (-r) (-q) price (by omega) (by omega) (by omega),
          applyFill_reduce_short p c r q price hp hq hb]
        simp only [mirror, Ledger.mk.injEq]
        have hpne : ((p : ℚ)) ≠ 0 := by exact_mod_cast (show p ≠ 0 by omega)
        refine ⟨by omega, ?_, ?_⟩ <;> (field_simp; ring_nf)
      · rw [applyFill_flip_long (-p) (-c) (-r) (-q) price (by omega) (by omega) (by omega),
          applyFill_flip_short p c r q price hp hq hb]
        simp only [mirror, Ledger.mk.injEq]
        have hpne : ((p : ℚ)) ≠ 0 := by exact_mod_cast (show p ≠ 0 by omega)
        refine ⟨by omega, by push_cast; ring, by field_simp; ring_nf⟩
  · subst hp
    rw [show (⟨-0, -c, -r⟩ : Ledger) = ⟨0, -c, -r⟩ by norm_num,
      applyFill_open (-c) (-r) (-q) price, applyFill_open c r q price]
    simp only [mirror, Ledger.mk.injEq]
    exact ⟨by trivial, by push_cast; ring, by trivial⟩
  · rcases lt_trichotomy q 0 with hq | hq | hq
    · rcases le_or_lt 0 (p + q) with hb | hb
      · rw [applyFill_reduce_short (-p) (-c) (-r) (-q) price (by omega) (by omega) (by omega),
          applyFill_reduce_long p c r q price hp hq hb]
        simp only [mirror, Ledger.mk.injEq]
        have hpne : ((p : ℚ)) ≠ 0 := by exact_mod_cast (show p ≠ 0 by omega)
        refine ⟨by omega, ?_, ?_⟩ <;> (field_simp; ring_nf)
      · rw [applyFill_flip_short (-p) (-c) (-r) (-q) price (by omega) (by omega) (by omega),
          applyFill_flip_long p c r q price hp hq hb]
        simp only [mirror, Ledger.mk.injEq]
        have hpne : ((p : ℚ)) ≠ 0 := by exact_mod_cast (show p ≠ 0 by omega)
        refine ⟨by omega, by push_cast; ring, by field_simp; ring_nf⟩
    · subst hq
      rw [neg_zero, applyFill_zero_qty (-p) (-c) (-r) price (by omega),
        applyFill_zero_qty p c r price (by omega)]
      simp [mirror]
    · rw [applyFill_add_short (-p) (-c) (-r) (-q) price (by omega) (by omega),
        applyFill_add_long p c r q price hp hq]
      simp only [mirror, Ledger.mk.injEq]
      exact ⟨by omega, by push_cast; ring, by ring_nf⟩

theorem applyFill_position (s : Ledger) (q : Int) (price : ℚ) :
    (applyFill s q price).position = s.position + q := rfl

theorem applyFill_wf_preserved (s : Ledger) (q : Int) (price : ℚ)
    (h : s.position = 0 → s.position_cost = 0) :
    (applyFill s q price).position = 0 → (applyFill s q price).position_cost = 0 := by
  obtain ⟨p, c, r⟩ := s
  intro hzero
  have hpq : p + q = 0 := hzero
  by_cases hp : p = 0
  · subst hp
    have hc : c = 0 := h rfl
    subst hc
    have hq : q = 0 := by omega
    subst hq
    rw [applyFill_open]
    simp
  · rcases lt_or_gt_of_ne hp with hneg | hpos
    · have hq : 0 < q := by omega
      rw [applyFill_reduce_short p c r q price hneg hq (by omega)]
      show c * (((p + q : Int) : ℚ) / (p : ℚ)) = 0
      rw [show ((p + q : Int) : ℚ) = 0 by exact_mod_cast hpq]
      simp
    · have hq : q < 0 := by omega
      rw [applyFill_reduce_long p c r q price hpos hq (by omega)]
      show c * (((p + q : Int) : ℚ) / (p : ℚ)) = 0
      rw [show ((p + q : Int) : ℚ) = 0 by exact_mod_cast hpq]
      simp

theorem applyFill_split_nonneg (s : Ledger) (q1 q2 : Int) (price : ℚ)
    (hwf : s.position = 0 → s.position_cost = 0) (h1 : 0 ≤ q1) (h2 : 0 ≤ q2) :
    applyFill (applyFill s q1 price) q2 price = applyFill s (q1 + q2) price := by
  obtain ⟨p, c, r⟩ := s
  rcases lt_trichotomy p 0 with hp | hp | hp
  · -- short position: incoming buys reduce then flip
    rcases eq_or_lt_of_le h1 with hq1 | hq1
    · rw [← hq1, applyFill_zero_qty p c r price (by omega), zero_add]
    · rcases lt_trichotomy (p + q1) 0 with hb | hb | hb
      · rw [applyFill_reduce_short p c r q1 price hp hq1 (by omega)]
        rcases eq_or_lt_of_le h2 with hq2 | hq2
        · rw [← hq2, applyFill_zero_qty _ _ _ price (by omega), add_zero,
            applyFill_reduce_short p c r q1 price hp hq1 (by omega)]
        · have hpne : ((p : ℚ)) ≠ 0 := by exact_mod_cast (show p ≠ 0 by omega)
          have hbne : ((p : ℚ) + (q1 : ℚ)) ≠ 0 := by
            exact_mod_cast (show (p + q1 : Int) ≠ 0 by omega)
          rcases le_or_lt (p + q1 + q2) 0 with hc | hc
          · rw [applyFill_reduce_short _ _ _ _ _ hb hq2 (by omega),
              applyFill_reduce_short p c r (q1 + q2) price hp (by omega) (by omega)]
            simp only [Ledger.mk.injEq]
            refine ⟨by omega, ?_, ?_⟩
            · push_cast
              field_simp
              ring
            · push_cast
              field_simp
              ring
          · rw [applyFill_flip_short _ _ _ _ _ hb hq2 (by omega),
              applyFill_flip_short p c r (q1 + q2) price hp (by omega) (by omega)]
            simp only [Ledger.mk.injEq]
            refine ⟨by omega, by push_cast; ring, ?_⟩
            push_cast
            field_simp
            ring
      · rw [applyFill_reduce_short p c r q1 price hp hq1 (by omega)]
        have hcast : ((p + q1 : Int) : ℚ) = 0 := by exact_mod_cast hb
        have hc2 : ((p : ℚ) + (q1 : ℚ)) = 0 := by push_cast at hcast; exact hcast
        rw [show (⟨p + q1, c * (((p + q1 : Int) : ℚ) / (p : ℚ)),
              r + (c / (p : ℚ) - price) * (q1 : ℚ)⟩ : Ledger) =
            ⟨0, 0, r + (c / (p : ℚ) - price) * (q1 : ℚ)⟩ by
          rw [hb]
          norm_num]
        rw [applyFill_open]
        rcases eq_or_lt_of_le h2 with hq2 | hq2
        · rw [← hq2, add_zero, applyFill_reduce_short p c r q1 price hp hq1 (by omega)]
          simp only [Ledger.mk.injEq]
          refine ⟨by omega, ?_, by trivial⟩
          rw [hcast]
          push_cast
          ring
        · rw [applyFill_flip_short p c r (q1 + q2) price hp (by omega) (by omega)]
          simp only [Ledger.mk.injEq]
          refine ⟨by omega, ?_, ?_⟩
          · push_cast
            linear_combination (-price) * hc2
          · linear_combination (c / (p : ℚ) - price) * hc2
      · rw [applyFill_flip_short p c r q1 price hp hq1 hb]
        rcases eq_or_lt_of_le h2 with hq2 | hq2
        · rw [← hq2, applyFill_zero_qty _ _ _ price (by omega), add_zero,
            applyFill_flip_short p c r q1 price hp hq1 hb]
        · rw [applyFill_add_long _ _ _ _ _ hb hq2,
            applyFill_flip_short p c r (q1 + q2) price hp (by omega) (by omega)]
          simp only [Ledger.mk.injEq]
          exact ⟨by omega, by push_cast; ring, by trivial⟩
  · -- flat position: opening then adding
    subst hp
    have hc : c = 0 := hwf rfl
    subst hc
    rcases eq_or_lt_of_le h1 with hq1 | hq1
    · rw [← hq1, applyFill_open, applyFill_open, zero_add, applyFill_open]
    · rcases eq_or_lt_of_le h2 with hq2 | hq2
      · rw [← hq2, applyFill_open, applyFill_zero_qty q1 _ _ price (by omega), add_zero,
          applyFill_open]
      · rw [applyFill_open, applyFill_add_long q1 _ _ q2 price hq1 hq2, applyFill_open]
        simp only [Ledger.mk.injEq]
        exact ⟨by trivial, by push_cast; ring, by trivial⟩
  · -- long position: both fills add
    rcases eq_or_lt_of_le h1 with hq1 | hq1
    · rw [← hq1, applyFill_zero_qty p c r price (by omega), zero_add]
    · rw [applyFill_add_long p c r q1 price hp hq1]
      rcases eq_or_lt_of_le h2 with hq2 | hq2
      · rw [← hq2, applyFill_zero_qty _ _ _ price (by omega), add_zero,
          applyFill_add_long p c r q1 price hp hq1]
      · rw [applyFill_add_long _ _ _ _ _ (by omega : (0 : Int) < p + q1) hq2,
          applyFill_add_long p c r (q1 + q2) price hp (by omega)]
        simp only [Ledger.mk.injEq]
        exact ⟨by omega, by push_cast; ring, by trivial⟩

theorem applyFill_split (s : Ledger) (q1 q2 : Int) (price : ℚ)
    (hwf : s.position = 0 → s.position_cost = 0)
    (hsign : (0 ≤ q1 ∧ 0 ≤ q2) ∨ (q1 ≤ 0 ∧ q2 ≤ 0)) :
    applyFill (applyFill s q1 price) q2 price = applyFill s (q1 + q2) price := by
  rcases hsign with ⟨h1, h2⟩ | ⟨h1, h2⟩
  · exact applyFill_split_nonneg s q1 q2 price hwf h1 h2
  · have hwfm : (mirror s).position = 0 → (mirror s).position_cost = 0 := by
      intro h
      have hp : s.position = 0 := by simpa [mirror] using h
      simp [mirror, hwf hp]
    have key := applyFill_split_nonneg (mirror s) (-q1) (-q2) price hwfm
      (by omega) (by omega)
    rw [applyFill_mirror s q1 price, applyFill_mirror (applyFill s q1 price) q2 price,
      show -q1 + -q2 = -(q1 + q2) by ring, applyFill_mirror s (q1 + q2) price] at key
    calc applyFill (applyFill s q1 price) q2 price
        = mirror (mirror (applyFill (applyFill s q1 price) q2 price)) :=
          (mirror_mirror _).symm
      _ = mirror (mirror (applyFill s (q1 + q2) price)) := by rw [key]
      _ = applyFill s (q1 + q2) price := mirror_mirror _

theorem consumeAsks_book (sell : List (Int × Int)) (ps : List Int) (e s r : Int) :
    (consumeAsks sell ps e s r).2 = sell := by
  induction ps generalizing e s r with
  | nil => rfl
  | cons p ps ih =>
    simp only [consumeAsks]
    split_ifs
    · exact ih e s r
    · rfl
    · exact ih _ _ _

theorem consumeBids_book (buy : List (Int × Int)) (ps : List Int) (e s r : Int) :
    (consumeBids buy ps e s r).2 = buy := by
  induction ps generalizing e s r with
  | nil => rfl
  | cons p ps ih =>
    simp only [consumeBids]
    split_ifs
    · exact ih e s r
    · rfl
    · exact ih _ _ _

theorem consumeAsks_exec_mono (sell : List (Int × Int)) (ps : List Int) (e s r : Int) :
    e ≤ (consumeAsks sell ps e s r).1.1 := by
  induction ps generalizing e s r with
  | nil => exact le_refl e
  | cons p ps ih =>
    simp only [consumeAsks]
    split_ifs with h1 h2
    · exact ih e s r
    · dsimp only; omega
    · have h := ih (e + min r (-(lookupQty sell p))) (s + min r (-(lookupQty sell p)) * p)
        (r - min r (-(lookupQty sell p)))
      omega

theorem consumeBids_exec_mono (buy : List (Int × Int)) (ps : List Int) (e s r : Int) :
    e ≤ (consumeBids buy ps e s r).1.1 := by
  induction ps generalizing e s r with
  | nil => exact le_refl e
  | cons p ps ih =>
    simp only [consumeBids]
    split_ifs with h1 h2
    · exact ih e s r
    · dsimp only; omega
    · have h := ih (e + min r (lookupQty buy p)) (s + min r (lookupQty buy p) * p)
        (r - min r (lookupQty buy p))
      omega

theorem consumeAsks_exec_add_rem (sell : List (Int × Int)) (ps : List Int) (e s r : Int) :
    (consumeAsks sell ps e s r).1.1 + (consumeAsks sell ps e s r).1.2.2 = e + r := by
  induction ps generalizing e s r with
  | nil => rfl
  | cons p ps ih =>
    simp only [consumeAsks]
    split_ifs with h1 h2
    · exact ih e s r
    · dsimp only; omega
    · have h := ih (e + min r (-(lookupQty sell p))) (s + min r (-(lookupQty sell p)) * p)
        (r - min r (-(lookupQty sell p)))
      omega

theorem consumeBids_exec_add_rem (buy : List (Int × Int)) (ps : List Int) (e s r : Int) :
    (consumeBids buy ps e s r).1.1 + (consumeBids buy ps e s r).1.2.2 = e + r := by
  induction ps generalizing e s r with
  | nil => rfl
  | cons p ps ih =>
    simp only [consumeBids]
    split_ifs with h1 h2
    · exact ih e s r
    · dsimp only; omega
    · have h := ih (e + min r (lookupQty buy p)) (s + min r (lookupQty buy p) * p)
        (r - min r (lookupQty buy p))
      omega

theorem consumeAsks_rem_nonneg (sell : List (Int × Int)) (ps : List Int) (e s r : Int)
    (hr : 0 ≤ r) : 0 ≤ (consumeAsks sell ps e s r).1.2.2 := by
  induction ps generalizing e s r with
  | nil => exact hr
  | cons p ps ih =>
    simp only [consumeAsks]
    split_ifs with h1 h2
    · exact ih e s r hr
    · dsimp only; omega
    · exact ih _ _ _ (by omega)

theorem consumeBids_rem_nonneg (buy : List (Int × Int)) (ps : List Int) (e s r : Int)
    (hr : 0 ≤ r) : 0 ≤ (consumeBids buy ps e s r).1.2.2 := by
  induction ps generalizing e s r with
  | nil => exact hr
  | cons p ps ih =>
    simp only [consumeBids]
    split_ifs with h1 h2
    · exact ih e s r hr
    · dsimp only; omega
    · exact ih _ _ _ (by omega)

theorem askAvail_sum_nonneg (sell : List (Int × Int)) (ps : List Int) :
    0 ≤ (ps.map (askAvail sell)).sum := by
  refine List.sum_nonneg ?_
  intro x hx
  obtain ⟨p, _, rfl⟩ := List.mem_map.mp hx
  exact le_max_left 0 _

theorem bidAvail_sum_nonneg (buy : List (Int × Int)) (ps : List Int) :
    0 ≤ (ps.map (bidAvail buy)).sum := by
  refine List.sum_nonneg ?_
  intro x hx
  obtain ⟨p, _, rfl⟩ := List.mem_map.mp hx
  exact le_max_left 0 _

theorem consumeAsks_exec_le_sum (sell : List (Int × Int)) (ps : List Int) (e s r : Int) :
    (consumeAsks sell ps e s r).1.1 ≤ e + (ps.map (askAvail sell)).sum := by
  induction ps generalizing e s r with
  | nil => simp [consumeAsks]
  | cons p ps ih =>
    simp only [consumeAsks, List.map_cons, List.sum_cons]
    have hnn := askAvail_sum_nonneg sell ps
    have havail : askAvail sell p = max 0 (-(lookupQty sell p)) := rfl
    split_ifs with h1 h2
    · have h := ih e s r; omega
    · dsimp only; omega
    · have h := ih (e + min r (-(lookupQty sell p))) (s + min r (-(lookupQty sell p)) * p)
        (r - min r (-(lookupQty sell p)))
      omega

theorem consumeBids_exec_le_sum (buy : List (Int × Int)) (ps : List Int) (e s r : Int) :
    (consumeBids buy ps e s r).1.1 ≤ e + (ps.map (bidAvail buy)).sum := by
  induction ps generalizing e s r with
  | nil => simp [consumeBids]
  | cons p ps ih =>
    simp only [consumeBids, List.map_cons, List.sum_cons]
    have hnn := bidAvail_sum_nonneg buy ps
    have havail : bidAvail buy p = max 0 (lookupQty buy p) := rfl
    split_ifs with h1 h2
    · have h := ih e s r; omega
    · dsimp only; omega
    · have h := ih (e + min r (lookupQty buy p)) (s + min r (lookupQty buy p) * p)
        (r - min r (lookupQty buy p))
      omega

theorem consumeAsks_exec_le_r (sell : List (Int × Int)) (ps : List Int) (r : Int)
    (hr : 0 ≤ r) : (consumeAsks sell ps 0 0 r).1.1 ≤ r := by
  have h1 := consumeAsks_exec_add_rem sell ps 0 0 r
  have h2 := consumeAsks_rem_nonneg sell ps 0 0 r hr
  omega

theorem consumeBids_exec_le_r (buy : List (Int × Int)) (ps : List Int) (r : Int)
    (hr : 0 ≤ r) : (consumeBids buy ps 0 0 r).1.1 ≤ r := by
  have h1 := consumeBids_exec_add_rem buy ps 0 0 r
  have h2 := consumeBids_rem_nonneg buy ps 0 0 r hr
  omega

theorem insertAsc_perm (x : Int) (l : List Int) : (insertAsc x l).Perm (x :: l) := by
  induction l with
  | nil => exact List.Perm.refl _
  | cons y ys ih =>
    simp only [insertAsc]
    split_ifs
    · exact List.Perm.refl _
    · exact (ih.cons y).trans (List.Perm.swap x y ys)

theorem sortAsc_perm (l : List Int) : (sortAsc l).Perm l := by
  induction l with
  | nil => exact List.Perm.refl _
  | cons x xs ih => exact (insertAsc_perm x (sortAsc xs)).trans (ih.cons x)

theorem insertDesc_perm (x : Int) (l : List Int) : (insertDesc x l).Perm (x :: l) := by
  induction l with
  | nil => exact List.Perm.refl _
  | cons y ys ih =>
    simp only [insertDesc]
    split_ifs
    · exact List.Perm.refl _
    · exact (ih.cons y).trans (List.Perm.swap x y ys)

theorem sortDesc_perm (l : List Int) : (sortDesc l).Perm l := by
  induction l with
  | nil => exact List.Perm.refl _
  | cons x xs ih => exact (insertDesc_perm x (sortDesc xs)).trans (ih.cons x)

theorem sortAsc_map_sum (f : Int → Int) (l : List Int) :
    ((sortAsc l).map f).sum = (l.map f).sum :=
  ((sortAsc_perm l).map f).sum_eq

theorem sortDesc_map_sum (f : Int → Int) (l : List Int) :
    ((sortDesc l).map f).sum = (l.map f).sum :=
  ((sortDesc_perm l).map f).sum_eq

theorem int_list_sum_nonpos {l : List Int} (h : ∀ x ∈ l, x ≤ 0) : l.sum ≤ 0 := by
  induction l with
  | nil => simp
  | cons x xs ih =>
    rw [List.sum_cons]
    have hx := h x (List.mem_cons_self x xs)
    have hxs := ih (fun y hy => h y (List.mem_cons_of_mem _ hy))
    omega

theorem applyFillList_cons (s : Ledger) (f : Int × ℚ) (fs : List (Int × ℚ)) :
    applyFillList s (f :: fs) = applyFillList (applyFill s f.1 f.2) fs := rfl

theorem applyFillList_split (s : Ledger) (price : ℚ) (qs : List Int)
    (hwf : s.position = 0 → s.position_cost = 0)
    (hsign : (∀ q ∈ qs, 0 ≤ q) ∨ (∀ q ∈ qs, q ≤ 0)) :
    applyFillList s (qs.map (fun q => (q, price))) = applyFill s qs.sum price := by
  induction qs generalizing s with
  | nil =>
    show s = applyFill s 0 price
    obtain ⟨p, c, r⟩ := s
    by_cases hp : p = 0
    · subst hp
      have hc : c = 0 := hwf rfl
      subst hc
      rw [applyFill_open]
      simp
    · rw [applyFill_zero_qty p c r price hp]
  | cons q qs ih =>
    have hq : (0 ≤ q ∧ ∀ x ∈ qs, 0 ≤ x) ∨ (q ≤ 0 ∧ ∀ x ∈ qs, x ≤ 0) := by
      rcases hsign with h | h
      · exact Or.inl ⟨h q (List.mem_cons_self q qs), fun x hx => h x (List.mem_cons_of_mem _ hx)⟩
      · exact Or.inr ⟨h q (List.mem_cons_self q qs), fun x hx => h x (List.mem_cons_of_mem _ hx)⟩
    simp only [List.map_cons, applyFillList_cons, List.sum_cons]
    rw [ih (applyFill s q price) (applyFill_wf_preserved s q price hwf)
      (by rcases hq with ⟨_, h⟩ | ⟨_, h⟩; exacts [Or.inl h, Or.inr h])]
    refine applyFill_split s q qs.sum price hwf ?_
    rcases hq with ⟨hq0, hall⟩ | ⟨hq0, hall⟩
    · exact Or.inl ⟨hq0, List.sum_nonneg hall⟩
    · exact Or.inr ⟨hq0, int_list_sum_nonpos hall⟩

theorem applyFill_close_step_long (p0 : ℚ) (m : Int) (r : ℚ) (q : Int) (pr : ℚ)
    (hm : 0 ≤ m) (hq : q ≤ 0) (h2 : 0 ≤ m + q) :
    applyFill ⟨m, (m : ℚ) * p0, r⟩ q pr =
      ⟨m + q, ((m + q : Int) : ℚ) * p0, r + ((q.natAbs : ℚ)) * (pr - p0)⟩ := by
  rcases eq_or_lt_of_le hm with hm0 | hm0
  · have hq0 : q = 0 := by omega
    subst hq0
    subst hm0
    rw [applyFill_open]
    simp only [Ledger.mk.injEq]
    norm_num
  · rcases eq_or_lt_of_le hq with hq0 | hq0
    · subst hq0
      rw [applyFill_zero_qty _ _ _ _ (by omega)]
      simp only [Ledger.mk.injEq]
      norm_num
    · rw [applyFill_reduce_long m ((m : ℚ) * p0) r q pr hm0 hq0 h2]
      simp only [Ledger.mk.injEq]
      have hmne : ((m : ℚ)) ≠ 0 := by exact_mod_cast (show m ≠ 0 by omega)
      refine ⟨by trivial, ?_, ?_⟩
      · push_cast
        field_simp
        ring
      · rw [natAbs_cast_neg hq0]
        field_simp
        ring

theorem close_run_long (p0 : ℚ) (closes : List (Int × ℚ)) :
    ∀ (m : Int) (r : ℚ), 0 ≤ m → (∀ f ∈ closes, f.1 ≤ 0) →
      0 ≤ m + qtySum closes →
      applyFillList ⟨m, (m : ℚ) * p0, r⟩ closes =
        ⟨m + qtySum closes, ((m + qtySum closes : Int) : ℚ) * p0, r + closePnl p0 closes⟩ := by
  induction closes with
  | nil =>
    intro m r hm _ _
    show (⟨m, (m : ℚ) * p0, r⟩ : Ledger) = _
    simp [qtySum, closePnl]
  | cons f rest ih =>
    intro m r hm hall hsum
    obtain ⟨q, pr⟩ := f
    have hq : q ≤ 0 := hall (q, pr) (List.mem_cons_self _ _)
    have hrest : ∀ g ∈ rest, g.1 ≤ 0 := fun g hg => hall g (List.mem_cons_of_mem _ hg)
    have hsumrest : (rest.map Prod.fst).sum ≤ 0 :=
      int_list_sum_nonpos (by
        intro x hx
        obtain ⟨g, hg, rfl⟩ := List.mem_map.mp hx
        exact hrest g hg)
    have hsum' : 0 ≤ m + (q + (rest.map Prod.fst).sum) := by
      simpa [qtySum, List.map_cons, List.sum_cons] using hsum
    have hmq : 0 ≤ m + q := by omega
    rw [applyFillList_cons]
    dsimp only
    rw [applyFill_close_step_long p0 m r q pr hm hq hmq]
    rw [ih (m + q) (r + ((q.natAbs : ℚ)) * (pr - p0)) (by omega) hrest
      (by simp only [qtySum]; omega)]
    simp only [Ledger.mk.injEq, qtySum, closePnl, List.map_cons, List.sum_cons]
    refine ⟨by omega, ?_, by ring⟩
    push_cast
    ring

theorem round_trip_long (r0 p0 : ℚ) (n : Int) (closes : List (Int × ℚ)) (hn : 0 < n)
    (hall : ∀ f ∈ closes, f.1 ≤ 0) (hsum : n + qtySum closes = 0) :
    applyFillList ⟨0, 0, r0⟩ ((n, p0) :: closes) = ⟨0, 0, r0 + closePnl p0 closes⟩ := by
  rw [applyFillList_cons]
  rw [show applyFill ⟨0, 0, r0⟩ n p0 = ⟨n, (n : ℚ) * p0, r0⟩ from applyFill_open 0 r0 n p0]
  rw [close_run_long p0 closes n r0 (by omega) hall (by omega)]
  simp only [Ledger.mk.injEq]
  refine ⟨by omega, ?_, by trivial⟩
  rw [show ((n + qtySum closes : Int) : ℚ) = 0 by exact_mod_cast hsum]
  ring

theorem applyFillList_mirror (s : Ledger) (fills : List (Int × ℚ)) :
    applyFillList (mirror s) (fills.map (fun f => (-f.1, f.2))) =
      mirror (applyFillList s fills) := by
  induction fills generalizing s with
  | nil => rfl
  | cons f rest ih =>
    simp only [List.map_cons, applyFillList_cons]
    rw [applyFill_mirror s f.1 f.2, ih]

theorem qtySum_negMap (fills : List (Int × ℚ)) :
    qtySum (fills.map (fun f => (-f.1, f.2))) = -qtySum fills := by
  simp only [qtySum, List.map_map]
  induction fills with
  | nil => simp
  | cons f rest ih =>
    simp only [List.map_cons, List.sum_cons, Function.comp]
    simp only [Function.comp] at ih
    omega

theorem closePnl_negMap (p0 : ℚ) (fills : List (Int × ℚ)) :
    closePnl p0 (fills.map (fun f => (-f.1, f.2))) = closePnl p0 fills := by
  simp only [closePnl, List.map_map]
  congr 1
  refine List.map_congr_left ?_
  intro f _
  simp [Function.comp, Int.natAbs_neg]

theorem round_trip_short (r0 p0 : ℚ) (n : Int) (closes : List (Int × ℚ)) (hn : n < 0)
    (hall : ∀ f ∈ closes, 0 ≤ f.1) (hsum : n + qtySum closes = 0) :
    applyFillList ⟨0, 0, r0⟩ ((n, p0) :: closes) = ⟨0, 0, r0 - closePnl p0 closes⟩ := by
  have key := round_trip_long (-r0) p0 (-n) (closes.map (fun f => (-f.1, f.2)))
    (by omega)
    (by
      intro f hf
      obtain ⟨g, hg, rfl⟩ := List.mem_map.mp hf
      have := hall g hg
      dsimp only
      omega)
    (by rw [qtySum_negMap]; omega)
  have hmaps : ((-n, p0) :: closes.map (fun f => (-f.1, f.2))) =
      ((n, p0) :: closes).map (fun f => (-f.1, f.2)) := by simp
  have hstart : (⟨0, 0, -r0⟩ : Ledger) = mirror ⟨0, 0, r0⟩ := by simp [mirror]
  rw [hmaps, hstart, applyFillList_mirror] at key
  have key2 := congrArg mirror key
  rw [mirror_mirror] at key2
  rw [key2, closePnl_negMap]
  simp only [mirror, Ledger.mk.injEq]
  refine ⟨by norm_num, by norm_num, by ring⟩

/-- C10: for every order and every book, both `match_order` versions return an
executed quantity that is zero or has the sign of the order's quantity, and a
price of `0` whenever nothing is filled (the vwap division is guarded by
`executed_qty > 0`). -/
theorem match_order_sign_and_zero_price (o : Order) (d : OrderDepth) :
    ((Basket.match_order o d).1 = 0 ∨ (Basket.match_order o d).1.sign = o.quantity.sign) ∧
    ((Basket.match_order o d).1 = 0 → (Basket.match_order o d).2 = 0) ∧
    ((Sim.match_order o d).1 = 0 ∨ (Sim.match_order o d).1.sign = o.quantity.sign) ∧
    ((Sim.match_order o d).1 = 0 → (Sim.match_order o d).2 = 0) := by
  refine ⟨?_, ?_, ?_, ?_⟩
  · by_cases hq : 0 < o.quantity
    · simp only [Basket.match_order]
      rw [if_pos hq]
      have h0 := consumeAsks_exec_mono d.sell_orders (Basket.available_prices_buy o d)
        0 0 o.quantity
      dsimp only
      rcases eq_or_lt_of_le h0 with h | h
      · exact Or.inl h.symm
      · exact Or.inr (by
          rw [Int.sign_eq_one_iff_pos.mpr h, Int.sign_eq_one_iff_pos.mpr hq])
    · simp only [Basket.match_order]
      rw [if_neg hq]
      have h0 := consumeBids_exec_mono d.buy_orders (Basket.available_prices_sell o d)
        0 0 (-o.quantity)
      have h1 := consumeBids_exec_le_r d.buy_orders (Basket.available_prices_sell o d)
        (-o.quantity) (by omega)
      dsimp only
      by_cases hq0 : o.quantity = 0
      · exact Or.inl (by omega)
      · rcases eq_or_lt_of_le h0 with h | h
        · exact Or.inl (by omega)
        · exact Or.inr (by
            rw [Int.sign_neg, Int.sign_eq_one_iff_pos.mpr h,
              Int.sign_eq_neg_one_iff_neg.mpr (show o.quantity < 0 by omega)])
  · by_cases hq : 0 < o.quantity
    · simp only [Basket.match_order]
      rw [if_pos hq]
      dsimp only
      intro h
      rw [if_neg (by omega)]
    · simp only [Basket.match_order]
      rw [if_neg hq]
      dsimp only
      intro h
      rw [if_neg (by omega)]
  · by_cases hq : 0 < o.quantity
    · simp only [Sim.match_order]
      rw [if_pos hq]
      have h0 := consumeAsks_exec_mono d.sell_orders (Sim.available_prices_buy o d)
        0 0 o.quantity
      dsimp only
      rcases eq_or_lt_of_le h0 with h | h
      · exact Or.inl h.symm
      · exact Or.inr (by
          rw [Int.sign_eq_one_iff_pos.mpr h, Int.sign_eq_one_iff_pos.mpr hq])
    · simp only [Sim.match_order]
      rw [if_neg hq]
      have h0 := consumeBids_exec_mono d.buy_orders (Sim.available_prices_sell o d)
        0 0 (-o.quantity)
      have h1 := consumeBids_exec_le_r d.buy_orders (Sim.available_prices_sell o d)
        (-o.quantity) (by omega)
      dsimp only
      by_cases hq0 : o.quantity = 0
      · exact Or.inl (by omega)
      · rcases eq_or_lt_of_le h0 with h | h
        · exact Or.inl (by omega)
        · exact Or.inr (by
            rw [Int.sign_neg, Int.sign_eq_one_iff_pos.mpr h,
              Int.sign_eq_neg_one_iff_neg.mpr (show o.quantity < 0 by omega)])
  · by_cases hq : 0 < o.quantity
    · simp only [Sim.match_order]
      rw [if_pos hq]
      dsimp only
      intro h
      rw [if_neg (by omega)]
    · simp only [Sim.match_order]
      rw [if_neg hq]
      dsimp only
      intro h
      rw [if_neg (by omega)]

theorem int_min?_spec {l : List Int} {m : Int} (h : l.min? = some m) :
    m ∈ l ∧ ∀ b ∈ l, m ≤ b := by
  haveI : Std.Antisymm (fun (a b : Int) => a ≤ b) := ⟨fun h1 h2 => le_antisymm h1 h2⟩
  rw [List.min?_eq_some_iff] at h
  · exact h
  · exact fun a => le_refl a
  · exact fun a b => min_choice a b
  · exact fun a b c => le_min_iff

theorem filter_le_min_singleton (ks : List Int) (m : Int) (hnd : ks.Nodup)
    (hmem : m ∈ ks) (hlb : ∀ k ∈ ks, m ≤ k) :
    ks.filter (fun p => decide (p ≤ m)) = [m] := by
  induction ks with
  | nil => simp at hmem
  | cons k ks ih =>
    rw [List.nodup_cons] at hnd
    rcases List.mem_cons.mp hmem with rfl | hm
    · have hrest : ks.filter (fun p => decide (p ≤ m)) = [] := by
        rw [List.filter_eq_nil_iff]
        intro a ha
        have h1 : m ≤ a := hlb a (List.mem_cons_of_mem _ ha)
        have h2 : a ≠ m := by rintro rfl; exact hnd.1 ha
        simp only [decide_eq_true_eq]
        omega
      simp [List.filter_cons, hrest]
    · have hk : k ≠ m := fun h => hnd.1 (h ▸ hm)
      have h1 : m ≤ k := hlb k (List.mem_cons_self k ks)
      rw [List.filter_cons, if_neg (by simp only [decide_eq_true_eq]; omega)]
      exact ih hnd.2 hm (fun j hj => hlb j (List.mem_cons_of_mem _ hj))

theorem consumeAsks_single (sell : List (Int × Int)) (m q : Int) :
    (consumeAsks sell [m] 0 0 q).1 =
      if min q (-(lookupQty sell m)) ≤ 0 then (0, 0, q)
      else (min q (-(lookupQty sell m)), min q (-(lookupQty sell m)) * m,
        q - min q (-(lookupQty sell m))) := by
  by_cases h : min q (-(lookupQty sell m)) ≤ 0
  · rw [if_pos h]
    simp only [consumeAsks]
    rw [if_pos h]
  · rw [if_neg h]
    simp only [consumeAsks]
    rw [if_neg h]
    by_cases h2 : q - min q (-(lookupQty sell m)) ≤ 0
    · rw [if_pos h2]
      simp
    · rw [if_neg h2]
      simp [consumeAsks]

/-- C1: with the market-order sentinel (price `0`) and a non-empty ask ladder,
the buy branch of `match_order` in `basket_simulator.py` consumes only the
single best ask level — the fill is exactly the requested quantity truncated
at the best ask's availability (never reaching deeper levels), at the best ask
price; and the spec's worked scenario: against
`{bids: {99:10, 98:5}, asks: {101:4, 103:6}}`, a market buy of 10 fills
`4 @ 101`, while a limit buy of 10 at 103 fills `4@101 + 6@103` with vwap
`102.2 = 511/5`. -/
theorem market_buy_single_level_cap :
    (∀ (o : Order) (d : OrderDepth) (m : Int), o.price = 0 → 0 < o.quantity →
      d.sell_orders ≠ [] → (keys d.sell_orders).Nodup →
      (keys d.sell_orders).min? = some m →
      (Basket.match_order o d).1 = max (min o.quantity (-(lookupQty d.sell_orders m))) 0 ∧
      ((Basket.match_order o d).1 ≠ 0 → (Basket.match_order o d).2 = (m : ℚ))) ∧
    Basket.match_order ⟨"PB1", 0, 10⟩ scenarioDepth = (4, 101) ∧
    Basket.match_order ⟨"PB1", 103, 10⟩ scenarioDepth = (10, 511/5) := by
  refine ⟨?_, ?_, ?_⟩
  · intro o d m hp hq hne hnd hm
    have hspec := int_min?_spec hm
    have hop : Basket.order_price_buy o d = m := by
      simp only [Basket.order_price_buy, if_pos (And.intro hp hne), hm, Option.getD_some]
    have hap : Basket.available_prices_buy o d = [m] := by
      simp only [Basket.available_prices_buy, hop,
        filter_le_min_singleton (keys d.sell_orders) m hnd hspec.1 hspec.2]
      rfl
    simp only [Basket.match_order]
    rw [if_pos hq, hap, consumeAsks_single]
    by_cases h : min o.quantity (-(lookupQty d.sell_orders m)) ≤ 0
    · rw [if_pos h]
      dsimp only
      exact ⟨by omega, fun hcontra => absurd rfl hcontra⟩
    · rw [if_neg h]
      dsimp only
      refine ⟨by omega, fun _ => ?_⟩
      rw [if_pos (by omega : (0 : Int) < min o.quantity (-(lookupQty d.sell_orders m)))]
      push_cast
      exact mul_div_cancel_left₀ _ (by exact_mod_cast (by omega :
        min o.quantity (-(lookupQty d.sell_orders m)) ≠ 0))
  · norm_num [Basket.match_order, Basket.available_prices_buy, Basket.order_price_buy,
      scenarioDepth, consumeAsks, lookupQty, keys, sortAsc, insertAsc, List.min?]
  · norm_num [Basket.match_order, Basket.available_prices_buy, Basket.order_price_buy,
      scenarioDepth, consumeAsks, lookupQty, keys, sortAsc, insertAsc, List.min?]

/-- C1 witness: the single-level statement instantiated at the scenario book
with a market buy of 10 against best ask `101` carrying quantity 4. -/
theorem market_buy_single_level_cap_witness :
    (Basket.match_order ⟨"MKT", 0, 10⟩ scenarioDepth).1 =
      max (min 10 (-(lookupQty scenarioDepth.sell_orders 101))) 0 :=
  (market_buy_single_level_cap.1 ⟨"MKT", 0, 10⟩ scenarioDepth 101 rfl (by norm_num)
    (by simp [scenarioDepth]) (by decide) (by decide)).1

/-- C4 (amended): every fill produced by `match_order` of `simulate.py` is
capped in magnitude by the total quantity available at the price levels
qualifying under the order's limit, and by the order's requested quantity. -/
theorem sim_match_order_depth_cap (o : Order) (d : OrderDepth) :
    |(Sim.match_order o d).1| ≤
      (if 0 < o.quantity then qualifyingAskVolume d o.price else qualifyingBidVolume d o.price) ∧
    |(Sim.match_order o d).1| ≤ |o.quantity| := by
  by_cases hq : 0 < o.quantity
  · rw [if_pos hq]
    simp only [Sim.match_order]
    rw [if_pos hq]
    have h0 := consumeAsks_exec_mono d.sell_orders (Sim.available_prices_buy o d)
      0 0 o.quantity
    have h1 := consumeAsks_exec_le_sum d.sell_orders (Sim.available_prices_buy o d)
      0 0 o.quantity
    have h2 := consumeAsks_exec_le_r d.sell_orders (Sim.available_prices_buy o d)
      o.quantity (by omega)
    have h3 : ((Sim.available_prices_buy o d).map (askAvail d.sell_orders)).sum =
        qualifyingAskVolume d o.price := by
      simp only [Sim.available_prices_buy, qualifyingAskVolume]
      exact sortAsc_map_sum _ _
    dsimp only
    rw [abs_of_nonneg h0, abs_of_nonneg (by omega : (0 : Int) ≤ o.quantity)]
    omega
  · rw [if_neg hq]
    simp only [Sim.match_order]
    rw [if_neg hq]
    have h0 := consumeBids_exec_mono d.buy_orders (Sim.available_prices_sell o d)
      0 0 (-o.quantity)
    have h1 := consumeBids_exec_le_sum d.buy_orders (Sim.available_prices_sell o d)
      0 0 (-o.quantity)
    have h2 := consumeBids_exec_le_r d.buy_orders (Sim.available_prices_sell o d)
      (-o.quantity) (by omega)
    have h3 : ((Sim.available_prices_sell o d).map (bidAvail d.buy_orders)).sum =
        qualifyingBidVolume d o.price := by
      simp only [Sim.available_prices_sell, qualifyingBidVolume]
      exact sortDesc_map_sum _ _
    dsimp only
    rw [abs_neg, abs_of_nonneg h0, abs_of_nonpos (by omega : o.quantity ≤ 0)]
    omega

/-- C4 counterexample: the order-processing loop of `run_simulation` in
`simulate_mean_reversion.py` adds the order's full quantity to the position
without consulting the book, so the quantity applied to the position can
exceed the liquidity visible at qualifying levels (here an empty book). -/
theorem mr_order_exceeds_book_liquidity :
    mrProcessOrder 0 ⟨"KELP", 100, 10⟩ - 0 = 10 ∧
    qualifyingAskVolume (build_order_depth [⟨none, none, none, none⟩,
      ⟨none, none, none, none⟩, ⟨none, none, none, none⟩]) 100 = 0 ∧
    ¬(|mrProcessOrder 0 ⟨"KELP", 100, 10⟩ - 0| ≤
      qualifyingAskVolume (build_order_depth [⟨none, none, none, none⟩,
        ⟨none, none, none, none⟩, ⟨none, none, none, none⟩]) 100) := by
  refine ⟨rfl, rfl, ?_⟩
  decide

/-- C9: both `match_order` versions leave the order-book view exactly as it
was — the returned post-state book equals the input book, and the fill is the
only output. -/
theorem match_order_book_unchanged (o : Order) (d : OrderDepth) :
    (Basket.match_order_full o d).2 = d ∧
    (Basket.match_order_full o d).1 = Basket.match_order o d ∧
    (Sim.match_order_full o d).2 = d ∧
    (Sim.match_order_full o d).1 = Sim.match_order o d := by
  obtain ⟨bo, so⟩ := d
  refine ⟨?_, ?_, ?_, ?_⟩
  · by_cases hq : 0 < o.quantity
    · simp only [Basket.match_order_full]
      rw [if_pos hq]
      dsimp only
      rw [consumeAsks_book]
    · simp only [Basket.match_order_full]
      rw [if_neg hq]
      dsimp only
      rw [consumeBids_book]
  · by_cases hq : 0 < o.quantity
    · simp only [Basket.match_order_full, Basket.match_order]
      rw [if_pos hq, if_pos hq]
    · simp only [Basket.match_order_full, Basket.match_order]
      rw [if_neg hq, if_neg hq]
  · by_cases hq : 0 < o.quantity
    · simp only [Sim.match_order_full]
      rw [if_pos hq]
      dsimp only
      rw [consumeAsks_book]
    · simp only [Sim.match_order_full]
      rw [if_neg hq]
      dsimp only
      rw [consumeBids_book]
  · by_cases hq : 0 < o.quantity
    · simp only [Sim.match_order_full, Sim.match_order]
      rw [if_pos hq, if_pos hq]
    · simp only [Sim.match_order_full, Sim.match_order]
      rw [if_neg hq, if_neg hq]

/-- C6: an order with zero quantity, or against a book with no liquidity on
either side, is matched to a zero fill (price `0`) by both `match_order`
versions, and the order-processing steps leave the ledger and the position
unchanged. -/
theorem invalid_order_dropped_silently (o : Order) (d : OrderDepth) (led : Ledger)
    (posn : Int) (h : o.quantity = 0 ∨ (d.buy_orders = [] ∧ d.sell_orders = [])) :
    Basket.match_order o d = (0, 0) ∧ Sim.match_order o d = (0, 0) ∧
    basketProcessOrder led o d = led ∧ simProcessOrder posn o d = posn := by
  have hb : Basket.match_order o d = (0, 0) := by
    rcases h with h0 | ⟨hbuy, hsell⟩
    · simp only [Basket.match_order]
      rw [if_neg (by omega : ¬ 0 < o.quantity)]
      have hm := consumeBids_exec_mono d.buy_orders (Basket.available_prices_sell o d)
        0 0 (-o.quantity)
      have hr := consumeBids_exec_le_r d.buy_orders (Basket.available_prices_sell o d)
        (-o.quantity) (by omega)
      have he : (consumeBids d.buy_orders (Basket.available_prices_sell o d)
          0 0 (-o.quantity)).1.1 = 0 := by omega
      rw [he]
      norm_num
    · by_cases hq : 0 < o.quantity
      · simp only [Basket.match_order]
        rw [if_pos hq]
        simp [Basket.available_prices_buy, hsell, keys, sortAsc, consumeAsks]
      · simp only [Basket.match_order]
        rw [if_neg hq]
        simp [Basket.available_prices_sell, hbuy, keys, sortDesc, consumeBids]
  have hs : Sim.match_order o d = (0, 0) := by
    rcases h with h0 | ⟨hbuy, hsell⟩
    · simp only [Sim.match_order]
      rw [if_neg (by omega : ¬ 0 < o.quantity)]
      have hm := consumeBids_exec_mono d.buy_orders (Sim.available_prices_sell o d)
        0 0 (-o.quantity)
      have hr := consumeBids_exec_le_r d.buy_orders (Sim.available_prices_sell o d)
        (-o.quantity) (by omega)
      have he : (consumeBids d.buy_orders (Sim.available_prices_sell o d)
          0 0 (-o.quantity)).1.1 = 0 := by omega
      rw [he]
      norm_num
    · by_cases hq : 0 < o.quantity
      · simp only [Sim.match_order]
        rw [if_pos hq]
        simp [Sim.available_prices_buy, hsell, keys, sortAsc, consumeAsks]
      · simp only [Sim.match_order]
        rw [if_neg hq]
        simp [Sim.available_prices_sell, hbuy, keys, sortDesc, consumeBids]
  refine ⟨hb, hs, ?_, ?_⟩
  · simp [basketProcessOrder, hb]
  · simp [simProcessOrder, hs]

/-- C6 witness: a zero-quantity order against the scenario book is matched to
a zero fill and changes nothing. -/
theorem invalid_order_dropped_silently_witness :
    Basket.match_order ⟨"PB", 100, 0⟩ scenarioDepth = (0, 0) ∧
    Sim.match_order ⟨"PB", 100, 0⟩ scenarioDepth = (0, 0) ∧
    basketProcessOrder ⟨5, 500, 0⟩ ⟨"PB", 100, 0⟩ scenarioDepth = ⟨5, 500, 0⟩ ∧
    simProcessOrder 7 ⟨"PB", 100, 0⟩ scenarioDepth = 7 :=
  invalid_order_dropped_silently ⟨"PB", 100, 0⟩ scenarioDepth ⟨5, 500, 0⟩ 7 (Or.inl rfl)

/-- C2: a fill that opposes and overshoots the current position (a flip) makes
the ledger realize `closing_qty × (price − avg_entry) × sign(old_position)`
with `closing_qty = |old_position|`, and reset the cost basis to
`new_position × price`. -/
theorem flip_realizes_and_resets (p : Int) (c r : ℚ) (q : Int) (price : ℚ)
    (hopp : (0 < p ∧ q < 0) ∨ (p < 0 ∧ 0 < q)) (hover : p.natAbs < q.natAbs) :
    (applyFill ⟨p, c, r⟩ q price).realized_pnl =
      r + ((p.natAbs : ℚ)) * (price - c / (p : ℚ)) * ((p.sign : ℚ)) ∧
    (applyFill ⟨p, c, r⟩ q price).position_cost = ((p + q : Int) : ℚ) * price ∧
    (applyFill ⟨p, c, r⟩ q price).position = p + q := by
  rcases hopp with ⟨hp, hq⟩ | ⟨hp, hq⟩
  · rw [applyFill_flip_long p c r q price hp hq (by omega)]
    refine ⟨?_, rfl, rfl⟩
    show r + (price - c / (p : ℚ)) * (p : ℚ) =
      r + ((p.natAbs : ℚ)) * (price - c / (p : ℚ)) * ((p.sign : ℚ))
    rw [Int.sign_eq_one_iff_pos.mpr hp, natAbs_cast_nonneg (le_of_lt hp)]
    push_cast
    ring
  · rw [applyFill_flip_short p c r q price hp hq (by omega)]
    refine ⟨?_, rfl, rfl⟩
    show r + (c / (p : ℚ) - price) * (-(p : ℚ)) =
      r + ((p.natAbs : ℚ)) * (price - c / (p : ℚ)) * ((p.sign : ℚ))
    rw [Int.sign_eq_neg_one_iff_neg.mpr hp, natAbs_cast_neg hp]
    push_cast
    ring

/-- C2 witness: from position +5 with cost basis 500 (average entry 100), a
fill of −8 at price 110 realizes exactly 50 and leaves position −3 with cost
basis −330. -/
theorem flip_realizes_and_resets_witness :
    (applyFill ⟨5, 500, 0⟩ (-8) 110).realized_pnl = 50 ∧
    (applyFill ⟨5, 500, 0⟩ (-8) 110).position_cost = -330 ∧
    (applyFill ⟨5, 500, 0⟩ (-8) 110).position = -3 := by
  have h := flip_realizes_and_resets 5 500 0 (-8) 110 (Or.inl (by decide)) (by decide)
  refine ⟨?_, ?_, ?_⟩
  · rw [h.1]
    norm_num [show ((5 : Int).natAbs) = 5 from rfl, show ((5 : Int).sign) = 1 from rfl]
  · rw [h.2.1]
    norm_num
  · rw [h.2.2]
    norm_num

/-- C3: the fill-application step of `basket_simulator.py` preserves the
invariant that a flat position has zero cost basis: for every nonzero fill
applied to a state satisfying it, if the new position is 0 then the new cost
basis is 0. -/
theorem cost_zero_when_flat_preserved (p : Int) (c r : ℚ) (q : Int) (price : ℚ)
    (_hq : q ≠ 0) (hinv : p = 0 → c = 0) :
    (applyFill ⟨p, c, r⟩ q price).position = 0 →
    (applyFill ⟨p, c, r⟩ q price).position_cost = 0 :=
  applyFill_wf_preserved ⟨p, c, r⟩ q price hinv

/-- C3 witness: closing a long of +5 (cost 500) with a fill of −5 leaves a
zero cost basis. -/
theorem cost_zero_when_flat_preserved_witness :
    (applyFill ⟨5, 500, 0⟩ (-5) 110).position_cost = 0 :=
  cost_zero_when_flat_preserved 5 500 0 (-5) 110 (by norm_num)
    (fun h => absurd h (by norm_num)) (by rw [applyFill_position]; norm_num)

/-- C5: the per-product mark-to-market of `run_basket_simulation` equals
`(last_mark_price − avg_entry_price) × position` with the average entry taken
from the ledger's cost basis, equals 0 when the position is 0 or no mid price
exists (no division is taken then), and the per-product inventory value of
`run_simulation` in `simulate.py` is the same formula at that engine's
identically-zero cost basis. -/
theorem unrealized_pnl_formula (pos : Int) (cost : ℚ) (last : Option ℚ) :
    (∀ lp, last = some lp → pos ≠ 0 →
      markProduct pos cost last = (lp - cost / (pos : ℚ)) * (pos : ℚ)) ∧
    (pos = 0 ∨ last = none → markProduct pos cost last = 0) ∧
    simMarkProduct pos last = markProduct pos 0 last := by
  refine ⟨?_, ?_, ?_⟩
  · rintro lp rfl hpos
    simp only [markProduct]
    rw [if_pos hpos]
    by_cases hp : 0 < pos
    · rw [if_pos hp]
    · rw [if_neg hp]
      rw [natAbs_cast_neg (by omega)]
      ring
  · rintro (rfl | rfl)
    · cases last <;> simp [markProduct]
    · simp [markProduct]
  · cases last with
    | none => rfl
    | some lp =>
      simp only [markProduct, simMarkProduct]
      by_cases hpos : pos ≠ 0
      · rw [if_pos hpos, if_pos hpos]
        by_cases hp : 0 < pos
        · rw [if_pos hp, zero_div]
          ring
        · rw [if_neg hp, zero_div, natAbs_cast_neg (by omega)]
          ring
      · rw [if_neg hpos, if_neg hpos]

/-- C5 witness: a long of 2 with cost basis 200 marked at mid 105 shows
`(105 − 100) × 2` of unrealized PnL. -/
theorem unrealized_pnl_formula_witness :
    markProduct 2 200 (some 105) = (105 - 200 / ((2 : Int) : ℚ)) * ((2 : Int) : ℚ) :=
  (unrealized_pnl_formula 2 200 (some 105)).1 105 rfl (by norm_num)

/-- C7: a position opened flat by one fill and taken back to exactly zero by
any number of opposing closing fills realizes in total
`Σ closing_qty × (closing_price − entry_price) × sign(original position)` and
ends with zero cost basis; and applying a run of same-direction fills at one
price yields exactly the ledger state of the single merged fill, so splitting
an offsetting fill into several smaller fills at the same price leaves the
total realized PnL unchanged. -/
theorem pnl_conservation_and_split :
    (∀ (r0 p0 : ℚ) (n : Int) (closes : List (Int × ℚ)), 0 < n →
      (∀ f ∈ closes, f.1 ≤ 0) → n + qtySum closes = 0 →
      applyFillList ⟨0, 0, r0⟩ ((n, p0) :: closes) = ⟨0, 0, r0 + closePnl p0 closes⟩) ∧
    (∀ (r0 p0 : ℚ) (n : Int) (closes : List (Int × ℚ)), n < 0 →
      (∀ f ∈ closes, 0 ≤ f.1) → n + qtySum closes = 0 →
      applyFillList ⟨0, 0, r0⟩ ((n, p0) :: closes) = ⟨0, 0, r0 - closePnl p0 closes⟩) ∧
    (∀ (s : Ledger) (price : ℚ) (qs : List Int),
      (s.position = 0 → s.position_cost = 0) →
      ((∀ q ∈ qs, 0 ≤ q) ∨ (∀ q ∈ qs, q ≤ 0)) →
      applyFillList s (qs.map (fun q => (q, price))) = applyFill s qs.sum price) :=
  ⟨round_trip_long, round_trip_short, applyFillList_split⟩

/-- C7 witness: opening +10 at 100 and closing with −4 at 105 and −6 at 110
realizes `4×5 + 6×10 = 80` and ends flat; and closing −8 split as −3 then −5
at 110 equals the single −8 fill. -/
theorem pnl_conservation_and_split_witness :
    applyFillList ⟨0, 0, 0⟩ ((10, 100) :: [(-4, 105), (-6, 110)]) =
      ⟨0, 0, 0 + closePnl 100 [(-4, 105), (-6, 110)]⟩ ∧
    applyFillList ⟨5, 500, 0⟩ ([-3, -5].map (fun q => (q, 110))) =
      applyFill ⟨5, 500, 0⟩ ([-3, -5].sum) 110 :=
  ⟨pnl_conservation_and_split.1 0 100 10 [(-4, 105), (-6, 110)] (by norm_num)
      (by intro f hf; fin_cases hf <;> norm_num) (by rfl),
    pnl_conservation_and_split.2.2 ⟨5, 500, 0⟩ 110 [-3, -5]
      (fun h => absurd h (by norm_num))
      (Or.inr (by intro q hq; fin_cases hq <;> norm_num))⟩

theorem mem_insertKV {l : List (Int × Int)} {k v : Int} {pq : Int × Int}
    (h : pq ∈ insertKV l k v) : pq = (k, v) ∨ pq ∈ l := by
  unfold insertKV at h
  split_ifs at h with hf
  · obtain ⟨kv, hkv, heq⟩ := List.mem_map.mp h
    by_cases hk : (kv.1 == k) = true
    · rw [if_pos hk] at heq
      exact Or.inl heq.symm
    · rw [if_neg hk] at heq
      exact Or.inr (heq ▸ hkv)
  · rcases List.mem_append.mp h with h1 | h2
    · exact Or.inr h1
    · exact Or.inl (List.mem_singleton.mp h2)

theorem addLevel_buy_orders (d : OrderDepth) (lv : LevelFields) :
    (addLevel d lv).buy_orders =
      match lv.bid_price, lv.bid_volume with
      | some bp, some bv => insertKV d.buy_orders bp bv
      | _, _ => d.buy_orders := by
  obtain ⟨bp, bv, ap, av⟩ := lv
  cases bp <;> cases bv <;> cases ap <;> cases av <;> rfl

theorem addLevel_sell_orders (d : OrderDepth) (lv : LevelFields) :
    (addLevel d lv).sell_orders =
      match lv.ask_price, lv.ask_volume with
      | some ap, some av => insertKV d.sell_orders ap (-av)
      | _, _ => d.sell_orders := by
  obtain ⟨bp, bv, ap, av⟩ := lv
  cases bp <;> cases bv <;> cases ap <;> cases av <;> rfl

theorem addLevel_signs (d : OrderDepth) (lv : LevelFields)
    (hb : ∀ v, lv.bid_volume = some v → 0 < v)
    (ha : ∀ v, lv.ask_volume = some v → 0 < v)
    (hd1 : ∀ pq ∈ d.buy_orders, 0 < pq.2)
    (hd2 : ∀ pq ∈ d.sell_orders, pq.2 < 0) :
    (∀ pq ∈ (addLevel d lv).buy_orders, 0 < pq.2) ∧
    (∀ pq ∈ (addLevel d lv).sell_orders, pq.2 < 0) := by
  obtain ⟨bp, bv, ap, av⟩ := lv
  constructor
  · intro pq hm
    rw [addLevel_buy_orders] at hm
    cases bp with
    | none => exact hd1 pq hm
    | some bp =>
      cases bv with
      | none => exact hd1 pq hm
      | some bv =>
        rcases mem_insertKV hm with rfl | hmem
        · exact hb bv rfl
        · exact hd1 pq hmem
  · intro pq hm
    rw [addLevel_sell_orders] at hm
    cases ap with
    | none => exact hd2 pq hm
    | some ap =>
      cases av with
      | none => exact hd2 pq hm
      | some av =>
        rcases mem_insertKV hm with rfl | hmem
        · have := ha av rfl
          show -av < 0
          omega
        · exact hd2 pq hmem

theorem foldl_addLevel_signs (row : List LevelFields) :
    ∀ (d : OrderDepth),
      (∀ lv ∈ row, ∀ v, lv.bid_volume = some v → 0 < v) →
      (∀ lv ∈ row, ∀ v, lv.ask_volume = some v → 0 < v) →
      (∀ pq ∈ d.buy_orders, 0 < pq.2) → (∀ pq ∈ d.sell_orders, pq.2 < 0) →
      (∀ pq ∈ (row.foldl addLevel d).buy_orders, 0 < pq.2) ∧
      (∀ pq ∈ (row.foldl addLevel d).sell_orders, pq.2 < 0) := by
  induction row with
  | nil =>
    intro d _ _ h1 h2
    exact ⟨h1, h2⟩
  | cons lv row ih =>
    intro d hbid hask h1 h2
    rw [List.foldl_cons]
    have hstep := addLevel_signs d lv (hbid lv (List.mem_cons_self _ _))
      (hask lv (List.mem_cons_self _ _)) h1 h2
    exact ih (addLevel d lv) (fun g hg => hbid g (List.mem_cons_of_mem _ hg))
      (fun g hg => hask g (List.mem_cons_of_mem _ hg)) hstep.1 hstep.2

/-- C8 counterexample: `build_order_depth` stores ask volumes negated (here
`(101, 4)` becomes `-4` in `sell_orders`) and copies a zero bid volume
unchecked into `buy_orders`, so not every stored quantity is strictly
positive. -/
theorem build_order_depth_not_all_positive :
    ¬ ((∀ pq ∈ (build_order_depth [⟨some 100, some 0, some 101, some 4⟩,
          ⟨none, none, none, none⟩, ⟨none, none, none, none⟩]).buy_orders, 0 < pq.2) ∧
       (∀ pq ∈ (build_order_depth [⟨some 100, some 0, some 101, some 4⟩,
          ⟨none, none, none, none⟩, ⟨none, none, none, none⟩]).sell_orders, 0 < pq.2)) := by
  decide

/-- C8 (amended): for every input row whose present volume fields are strictly
positive, `build_order_depth` stores a strictly positive quantity at every bid
price and a strictly negative quantity (positive magnitude) at every ask
price; an empty ladder means no liquidity on that side. -/
theorem build_order_depth_signs (row : List LevelFields)
    (hbid : ∀ lv ∈ row, ∀ v, lv.bid_volume = some v → 0 < v)
    (hask : ∀ lv ∈ row, ∀ v, lv.ask_volume = some v → 0 < v) :
    (∀ pq ∈ (build_order_depth row).buy_orders, 0 < pq.2) ∧
    (∀ pq ∈ (build_order_depth row).sell_orders, pq.2 < 0) :=
  foldl_addLevel_signs row ⟨[], []⟩ hbid hask (by simp) (by simp)

/-- C8 witness: the scenario row with positive volumes yields positive bid
quantities and negative ask quantities. -/
theorem build_order_depth_signs_witness :
    (∀ pq ∈ (build_order_depth [⟨some 99, some 10, some 101, some 4⟩,
        ⟨some 98, some 5, some 103, some 6⟩, ⟨none, none, none, none⟩]).buy_orders,
      0 < pq.2) ∧
    (∀ pq ∈ (build_order_depth [⟨some 99, some 10, some 101, some 4⟩,
        ⟨some 98, some 5, some 103, some 6⟩, ⟨none, none, none, none⟩]).sell_orders,
      pq.2 < 0) :=
  build_order_depth_signs
    [⟨some 99, some 10, some 101, some 4⟩, ⟨some 98, some 5, some 103, some 6⟩,
      ⟨none, none, none, none⟩]
    (by
      intro lv hlv v hv
      fin_cases hlv <;> simp_all <;> omega)
    (by
      intro lv hlv v hv
      fin_cases hlv <;> simp_all <;> omega)

end Prosperity
